import Mathlib

/-!
Shallow embedding of the process-registry component of dvc-task
(src/dvc_task/proc/manager.py) and verification of its specified
behavior.

The registry persists one JSON record per named process under a
directory tree; `ProcessManager` reads/writes those records and sends
OS signals to the recorded pids.  The embedding models:

* the on-disk store as an association list from entry name to the
  optional content of the entry's `name.json` file (absent, malformed,
  or a decodable record);
* the OS process table as a parameter `osKill : Int → Int → KillResult`
  giving the outcome of an `os.kill(pid, sig)` call;
* each manager operation as a pure function returning the Python-level
  outcome (`Except Exc Unit`), the resulting store, and the list of
  OS-level signal calls issued (so "no OS call is made" is provable).
-/

set_option autoImplicit false

namespace DvcTask

/-- Modelled from the spec: `ProcessInfo` (src/dvc_task/proc/process.py is
not part of the provided sources).  Section 6 of the design gives the
persisted record fields: `pid` (integer), `stdin`, `stdout`, `stderr`
(optional path strings), `returncode` (optional integer), `wdir`
(path string). -/
structure ProcessInfo where
  pid : Int
  stdin : Option String := none
  stdout : Option String := none
  stderr : Option String := none
  returncode : Option Int := none
  wdir : Option String := none
  deriving Repr, DecidableEq

/-- Content of an entry's `name.json` file: either bytes that decode to a
`ProcessInfo` or malformed content (on which `json.load` raises
`JSONDecodeError`). -/
inductive RecordFile where
  | valid (info : ProcessInfo)
  | malformed
  deriving Repr, DecidableEq

/-- The manager's `wdir` directory: one sub-directory per entry name, each
optionally containing its `name.json` record file (`none` = the record
file is missing from the directory). -/
abbrev Store := List (String × Option RecordFile)

/-- Python exceptions that the manager's operations can raise. -/
inductive Exc where
  | keyError
  | jsonDecodeError
  | unsupportedSignalError (sig : Int)
  | processLookupError
  | notTerminatedError (name : String)
  | osError (winerror : Option Int)
  deriving Repr, DecidableEq

/-- The two platform families distinguished by `sys.platform == "win32"`. -/
inductive Platform where
  | posix
  | win32
  deriving Repr, DecidableEq

/-- Outcome of an `os.kill(pid, sig)` call.  `osError w` is an `OSError`
that is not a `ProcessLookupError`; `w` is its `winerror` attribute
(`none` on POSIX, where the attribute is never consulted). -/
inductive KillResult where
  | ok
  | processLookupError
  | osError (winerror : Option Int)
  deriving Repr, DecidableEq

/-- Numeric value of `signal.SIGTERM`. -/
def SIGTERM : Int := 15

/-- Numeric value of `signal.SIGKILL` (POSIX only). -/
def SIGKILL : Int := 9

/-- Numeric value of `signal.CTRL_C_EVENT` (Windows). -/
def CTRL_C_EVENT : Int := 0

/-- Numeric value of `signal.CTRL_BREAK_EVENT` (Windows). -/
def CTRL_BREAK_EVENT : Int := 1

/-- First entry of the directory listing with the given name, if any. -/
def lookupEntry : Store → String → Option (Option RecordFile)
  | [], _ => none
  | (k, f) :: rest, key => if k = key then some f else lookupEntry rest key

/-- Overwrite the record file of the first entry with the given name;
identity when no entry has that name. -/
def setEntry : Store → String → Option RecordFile → Store
  | [], _, _ => []
  | (k, f) :: rest, key, v =>
    if k = key then (k, v) :: rest else (k, f) :: setEntry rest key v

/-- Remove the first entry with the given name (recursive directory
removal); identity when no entry has that name. -/
def eraseEntry : Store → String → Store
  | [], _ => []
  | (k, f) :: rest, key =>
    if k = key then rest else (k, f) :: eraseEntry rest key

/-- Entry names in directory-listing order (`ProcessManager.__iter__`). -/
def keys (st : Store) : List String := st.map Prod.fst

/-- Whether the directory listing has no repeated entry names (always true
of a real filesystem directory). -/
def nodupKeys (st : Store) : Bool := (keys st).Nodup

/-- `ProcessManager.__getitem__`: open `wdir/key/key.json` and decode it.
A missing directory or missing record file raises `FileNotFoundError`,
converted to `KeyError`; malformed content raises `JSONDecodeError`,
which is not converted. -/
def getItem (st : Store) (key : String) : Except Exc ProcessInfo :=
  match lookupEntry st key with
  | none => .error .keyError
  | some none => .error .keyError
  | some (some .malformed) => .error .jsonDecodeError
  | some (some (.valid info)) => .ok info

/-- `ProcessManager.__setitem__`: write `wdir/key/key.json`.  When the
entry's directory does not exist the `open` for writing raises
`FileNotFoundError`, reraised as `KeyError` by the decorator. -/
def setItem (st : Store) (key : String) (value : ProcessInfo) :
    Except Exc Store :=
  match lookupEntry st key with
  | none => .error .keyError
  | some _ => .ok (setEntry st key (some (.valid value)))

/-- `ProcessManager.__delitem__`: recursively remove the entry directory;
no-op when it does not exist. -/
def delItem (st : Store) (key : String) : Store := eraseEntry st key

deriving instance DecidableEq for Except

/-- Outcome of a manager operation: the Python-level result, the resulting
store, and the `os.kill` calls issued, in order, as (pid, sig) pairs. -/
structure SigResult where
  res : Except Exc Unit
  store : Store
  calls : List (Int × Int)
  deriving Repr, DecidableEq

namespace ProcessManager

/-- `ProcessManager.get`: return the record, or `default` on `KeyError`. -/
def get (st : Store) (key : String) (default : Option ProcessInfo) :
    Except Exc (Option ProcessInfo) :=
  match getItem st key with
  | .ok info => .ok (some info)
  | .error .keyError => .ok default
  | .error e => .error e

/-- Enumeration body of `ProcessManager.processes` over a snapshot of the
entry names: each name's record is fetched, a `KeyError` skips the
entry, and any other exception propagates out of the generator. -/
def processesGo (st : Store) : List String → Except Exc (List (String × ProcessInfo))
  | [] => .ok []
  | n :: ns =>
    match getItem st n with
    | .ok info => (processesGo st ns).map (fun l => (n, info) :: l)
    | .error .keyError => processesGo st ns
    | .error e => .error e

/-- `ProcessManager.processes`: iterate the entry names and yield
`(name, record)` pairs, skipping entries that raise `KeyError`. -/
def processes (st : Store) : Except Exc (List (String × ProcessInfo)) :=
  processesGo st (keys st)

/-- `ProcessManager.send_signal`: fetch the record, validate the signal on
win32, and if the record has no returncode, `os.kill` the pid; a
`ProcessLookupError` (or, on win32, an `OSError` with `winerror == 87`)
self-heals the record to `returncode = -1` before the
`ProcessLookupError` is raised to the caller. -/
def send_signal (plat : Platform) (osKill : Int → Int → KillResult)
    (st : Store) (name : String) (sig : Int) : SigResult :=
  match getItem st name with
  | .error e => ⟨.error e, st, []⟩
  | .ok process_info =>
    if plat = .win32 ∧
        ¬(sig = SIGTERM ∨ sig = CTRL_C_EVENT ∨ sig = CTRL_BREAK_EVENT) then
      ⟨.error (.unsupportedSignalError sig), st, []⟩
    else
      match process_info.returncode with
      | some _ => ⟨.ok (), st, []⟩
      | none =>
        match osKill process_info.pid sig with
        | .ok => ⟨.ok (), st, [(process_info.pid, sig)]⟩
        | .processLookupError =>
          match setItem st name { process_info with returncode := some (-1) } with
          | .ok st2 => ⟨.error .processLookupError, st2, [(process_info.pid, sig)]⟩
          | .error e => ⟨.error e, st, [(process_info.pid, sig)]⟩
        | .osError winerror =>
          if plat = .win32 ∧ winerror = some 87 then
            match setItem st name { process_info with returncode := some (-1) } with
            | .ok st2 => ⟨.error .processLookupError, st2, [(process_info.pid, sig)]⟩
            | .error e => ⟨.error e, st, [(process_info.pid, sig)]⟩
          else
            ⟨.error (.osError winerror), st, [(process_info.pid, sig)]⟩

/-- `ProcessManager.terminate`: `send_signal(name, SIGTERM)`. -/
def terminate (plat : Platform) (osKill : Int → Int → KillResult)
    (st : Store) (name : String) : SigResult :=
  send_signal plat osKill st name SIGTERM

/-- `ProcessManager.kill`: `send_signal(name, SIGKILL)` on POSIX,
`send_signal(name, SIGTERM)` on win32. -/
def kill (plat : Platform) (osKill : Int → Int → KillResult)
    (st : Store) (name : String) : SigResult :=
  match plat with
  | .win32 => send_signal plat osKill st name SIGTERM
  | .posix => send_signal plat osKill st name SIGKILL

/-- `ProcessManager.remove`: fetch the record (`KeyError` → no-op success);
raise `ProcessNotTerminatedError` when the record has no returncode and
`force` is false; otherwise `kill` the entry, swallowing only
`ProcessLookupError`, then delete the entry directory. -/
def remove (plat : Platform) (osKill : Int → Int → KillResult)
    (st : Store) (name : String) (force : Bool) : SigResult :=
  match getItem st name with
  | .error .keyError => ⟨.ok (), st, []⟩
  | .error e => ⟨.error e, st, []⟩
  | .ok process_info =>
    if process_info.returncode = none ∧ force = false then
      ⟨.error (.notTerminatedError name), st, []⟩
    else
      let k := kill plat osKill st name
      match k.res with
      | .ok _ => ⟨.ok (), delItem k.store name, k.calls⟩
      | .error .processLookupError => ⟨.ok (), delItem k.store name, k.calls⟩
      | .error e => ⟨.error e, k.store, k.calls⟩

/-- Loop body of `ProcessManager.cleanup` over a snapshot of the entry
names: `remove` each, swallowing only `ProcessNotTerminatedError`; any
other exception aborts the scan. -/
def cleanupGo (plat : Platform) (osKill : Int → Int → KillResult)
    (force : Bool) : List String → Store → SigResult
  | [], st => ⟨.ok (), st, []⟩
  | n :: ns, st =>
    let r := remove plat osKill st n force
    match r.res with
    | .ok _ =>
      let rest := cleanupGo plat osKill force ns r.store
      ⟨rest.res, rest.store, r.calls ++ rest.calls⟩
    | .error (.notTerminatedError _) =>
      let rest := cleanupGo plat osKill force ns r.store
      ⟨rest.res, rest.store, r.calls ++ rest.calls⟩
    | .error e => ⟨.error e, r.store, r.calls⟩

/-- `ProcessManager.cleanup`: iterate a snapshot of the entry names
(`os.listdir` returns the whole listing up front) and `remove` each,
swallowing `ProcessNotTerminatedError` per entry. -/
def cleanup (plat : Platform) (osKill : Int → Int → KillResult)
    (st : Store) (force : Bool) : SigResult :=
  cleanupGo plat osKill force (keys st) st

end ProcessManager

/-- Boolean test used to state the cleanup claim: the entry holds a
decodable record whose returncode is absent (an `UNKNOWN_LIVE` entry). -/
def entryLive : String × Option RecordFile → Bool
  | (_, some (.valid info)) => info.returncode.isNone
  | _ => false

/-- The `(name, record)` pairs of the entries whose record file is present
and decodable, in listing order. -/
def validPairs (st : Store) : List (String × ProcessInfo) :=
  st.filterMap (fun p =>
    match p.2 with
    | some (.valid info) => some (p.1, info)
    | _ => none)

/-- Returncode monotonicity from store `st` to store `st2`: every record
readable afterwards was readable before, with either an unchanged
returncode or the registry's only write — an absent returncode healed to
`-1`.  In particular a present returncode is never modified or
cleared. -/
def RcMono (st st2 : Store) : Prop :=
  ∀ nm info2, getItem st2 nm = .ok info2 →
    ∃ info, getItem st nm = .ok info ∧
      (info2.returncode = info.returncode ∨
        (info.returncode = none ∧ info2.returncode = some (-1)))

/-! ### Concrete values used by the witness and counterexample theorems -/

/-- A record of a (presumed) live process: no returncode yet. -/
def infoLive : ProcessInfo := { pid := 123 }

/-- A record of a terminated process: returncode 0. -/
def infoDead : ProcessInfo := { pid := 124, returncode := some 0 }

/-- A store with one live entry and one terminated entry. -/
def wStore : Store :=
  [("a", some (.valid infoLive)), ("b", some (.valid infoDead))]

/-- A store whose first entry has a malformed record file and whose second
entry has a valid one. -/
def mStore : Store :=
  [("a", some .malformed), ("b", some (.valid infoDead))]

/-- An OS in which no pid exists: every kill raises `ProcessLookupError`. -/
def osEmpty : Int → Int → KillResult := fun _ _ => .processLookupError

/-- An OS in which every kill succeeds. -/
def osAll : Int → Int → KillResult := fun _ _ => .ok

/-! ### Store lemmas -/

theorem lookupEntry_eq_of_getItem_ok {st : Store} {key : String}
    {info : ProcessInfo} (h : getItem st key = .ok info) :
    lookupEntry st key = some (some (.valid info)) := by
  unfold getItem at h
  cases hl : lookupEntry st key with
  | none => rw [hl] at h; cases h
  | some f =>
    rw [hl] at h
    match f with
    | none => cases h
    | some .malformed => cases h
    | some (.valid i) => cases h; rfl

theorem setItem_of_getItem_ok {st : Store} {key : String}
    {info v : ProcessInfo} (h : getItem st key = .ok info) :
    setItem st key v = .ok (setEntry st key (some (.valid v))) := by
  unfold setItem
  rw [lookupEntry_eq_of_getItem_ok h]

theorem lookupEntry_setEntry_self {st : Store} {k : String}
    {f v : Option RecordFile} (h : lookupEntry st k = some f) :
    lookupEntry (setEntry st k v) k = some v := by
  induction st with
  | nil => simp [lookupEntry] at h
  | cons p rest ih =>
    obtain ⟨k0, f0⟩ := p
    by_cases hk : k0 = k
    · simp [lookupEntry, setEntry, hk]
    · simp only [lookupEntry, setEntry, if_neg hk] at h ⊢
      exact ih h

theorem lookupEntry_setEntry_ne {st : Store} {k nm : String}
    {v : Option RecordFile} (h : nm ≠ k) :
    lookupEntry (setEntry st k v) nm = lookupEntry st nm := by
  induction st with
  | nil => simp [setEntry]
  | cons p rest ih =>
    obtain ⟨k0, f0⟩ := p
    by_cases hk : k0 = k
    · subst hk
      have h2 : ¬(k0 = nm) := fun hn => h hn.symm
      simp only [setEntry, if_pos rfl, lookupEntry, if_neg h2]
    · simp only [setEntry, if_neg hk, lookupEntry]
      by_cases h0 : k0 = nm
      · simp [h0]
      · simp [h0, ih]

theorem getItem_setEntry_self {st : Store} {key : String}
    {info v : ProcessInfo} (h : getItem st key = .ok info) :
    getItem (setEntry st key (some (.valid v))) key = .ok v := by
  unfold getItem
  rw [lookupEntry_setEntry_self (lookupEntry_eq_of_getItem_ok h)]

theorem keys_setEntry {st : Store} {k : String} {v : Option RecordFile} :
    keys (setEntry st k v) = keys st := by
  induction st with
  | nil => rfl
  | cons p rest ih =>
    obtain ⟨k0, f0⟩ := p
    by_cases hk : k0 = k
    · simp [setEntry, hk, keys]
    · simp only [setEntry, if_neg hk, keys, List.map_cons]
      simpa [keys] using ih

theorem eraseEntry_sublist {st : Store} {k : String} :
    (eraseEntry st k).Sublist st := by
  induction st with
  | nil => simp [eraseEntry]
  | cons p rest ih =>
    obtain ⟨k0, f0⟩ := p
    by_cases hk : k0 = k
    · simp only [eraseEntry, if_pos hk]
      exact List.sublist_cons_self _ _
    · simp only [eraseEntry, if_neg hk]
      exact ih.cons₂ (k0, f0)

theorem lookupEntry_eq_none_of_not_mem {st : Store} {k : String}
    (h : k ∉ keys st) : lookupEntry st k = none := by
  induction st with
  | nil => rfl
  | cons p rest ih =>
    obtain ⟨k0, f0⟩ := p
    simp only [keys, List.map_cons, List.mem_cons] at h
    push_neg at h
    have h2 : ¬(k0 = k) := fun hn => h.1 hn.symm
    simp only [lookupEntry, if_neg h2]
    exact ih h.2

theorem lookupEntry_eraseEntry_ne {st : Store} {k nm : String} (h : nm ≠ k) :
    lookupEntry (eraseEntry st k) nm = lookupEntry st nm := by
  induction st with
  | nil => rfl
  | cons p rest ih =>
    obtain ⟨k0, f0⟩ := p
    by_cases hk : k0 = k
    · subst hk
      have h2 : ¬(k0 = nm) := fun hn => h hn.symm
      simp [eraseEntry, lookupEntry, h2]
    · simp only [eraseEntry, if_neg hk, lookupEntry]
      by_cases h0 : k0 = nm
      · simp [h0]
      · simp [h0, ih]

theorem lookupEntry_eraseEntry_self {st : Store} {k : String}
    (h : (keys st).Nodup) : lookupEntry (eraseEntry st k) k = none := by
  induction st with
  | nil => rfl
  | cons p rest ih =>
    obtain ⟨k0, f0⟩ := p
    simp only [keys, List.map_cons, List.nodup_cons] at h
    by_cases hk : k0 = k
    · subst hk
      simp only [eraseEntry, if_pos rfl]
      exact lookupEntry_eq_none_of_not_mem h.1
    · simp only [eraseEntry, if_neg hk, lookupEntry, if_neg hk]
      exact ih h.2

theorem keys_append {a b : Store} : keys (a ++ b) = keys a ++ keys b := by
  simp [keys]

theorem lookupEntry_append_of_not_mem {pre rest : Store} {k : String}
    (h : k ∉ keys pre) :
    lookupEntry (pre ++ rest) k = lookupEntry rest k := by
  induction pre with
  | nil => rfl
  | cons p tl ih =>
    obtain ⟨k0, f0⟩ := p
    simp only [keys, List.map_cons, List.mem_cons] at h
    push_neg at h
    have h2 : ¬(k0 = k) := fun hn => h.1 hn.symm
    simp only [List.cons_append, lookupEntry, if_neg h2]
    exact ih h.2

theorem eraseEntry_append_of_not_mem {pre post : Store} {k : String}
    {f : Option RecordFile} (h : k ∉ keys pre) :
    eraseEntry (pre ++ (k, f) :: post) k = pre ++ post := by
  induction pre with
  | nil => simp [eraseEntry]
  | cons p tl ih =>
    obtain ⟨k0, f0⟩ := p
    simp only [keys, List.map_cons, List.mem_cons] at h
    push_neg at h
    have h2 : ¬(k0 = k) := fun hn => h.1 hn.symm
    simp only [List.cons_append, eraseEntry, if_neg h2]
    exact congrArg (fun s => (k0, f0) :: s) (ih h.2)

/-! ### Behavior lemmas about the manager operations -/

theorem setItem_ok_eq {st : Store} {key : String} {v : ProcessInfo}
    {st2 : Store} (h : setItem st key v = .ok st2) :
    st2 = setEntry st key (some (.valid v)) := by
  unfold setItem at h
  cases hl : lookupEntry st key with
  | none => rw [hl] at h; cases h
  | some f => rw [hl] at h; cases h; rfl

theorem send_signal_cond_false {plat : Platform} {sig : Int}
    (hsig : plat = .posix ∨ sig = SIGTERM ∨ sig = CTRL_C_EVENT ∨
      sig = CTRL_BREAK_EVENT) :
    ¬(plat = .win32 ∧
      ¬(sig = SIGTERM ∨ sig = CTRL_C_EVENT ∨ sig = CTRL_BREAK_EVENT)) := by
  rcases hsig with hp | hs
  · rintro ⟨hw, -⟩
    rw [hp] at hw
    cases hw
  · rintro ⟨-, hn⟩
    exact hn hs

theorem send_signal_noop_of_terminated {plat : Platform}
    {osKill : Int → Int → KillResult} {st : Store} {name : String} {sig : Int}
    {info : ProcessInfo} {rc : Int}
    (h : getItem st name = .ok info) (hrc : info.returncode = some rc)
    (hsig : plat = .posix ∨ sig = SIGTERM ∨ sig = CTRL_C_EVENT ∨
      sig = CTRL_BREAK_EVENT) :
    ProcessManager.send_signal plat osKill st name sig = ⟨.ok (), st, []⟩ := by
  simp only [ProcessManager.send_signal, h,
    if_neg (send_signal_cond_false hsig), hrc]

theorem kill_of_terminated {plat : Platform}
    {osKill : Int → Int → KillResult} {st : Store} {name : String}
    {info : ProcessInfo} {rc : Int}
    (h : getItem st name = .ok info) (hrc : info.returncode = some rc) :
    ProcessManager.kill plat osKill st name = ⟨.ok (), st, []⟩ := by
  cases plat with
  | win32 =>
    exact send_signal_noop_of_terminated h hrc (Or.inr (Or.inl rfl))
  | posix =>
    exact send_signal_noop_of_terminated h hrc (Or.inl rfl)

theorem remove_notTerminated_aux {plat : Platform}
    {osKill : Int → Int → KillResult} {st : Store} {name : String}
    {info : ProcessInfo}
    (h : getItem st name = .ok info) (hrc : info.returncode = none) :
    ProcessManager.remove plat osKill st name false =
      ⟨.error (.notTerminatedError name), st, []⟩ := by
  simp only [ProcessManager.remove, h, hrc]
  simp

theorem remove_terminated_aux {plat : Platform}
    {osKill : Int → Int → KillResult} {st : Store} {name : String}
    {info : ProcessInfo} {rc : Int}
    (h : getItem st name = .ok info) (hrc : info.returncode = some rc)
    (force : Bool) :
    ProcessManager.remove plat osKill st name force =
      ⟨.ok (), delItem st name, []⟩ := by
  have hcond : ¬(info.returncode = none ∧ force = false) := by
    rintro ⟨hn, -⟩
    rw [hrc] at hn
    cases hn
  simp only [ProcessManager.remove, h, if_neg hcond, kill_of_terminated h hrc]

theorem send_signal_store_eq (plat : Platform)
    (osKill : Int → Int → KillResult) (st : Store) (name : String)
    (sig : Int) :
    (ProcessManager.send_signal plat osKill st name sig).store = st ∨
    ∃ v, (ProcessManager.send_signal plat osKill st name sig).store =
      setEntry st name (some (.valid v)) := by
  unfold ProcessManager.send_signal
  split
  · exact Or.inl rfl
  · split
    · exact Or.inl rfl
    · split
      · exact Or.inl rfl
      · split
        · exact Or.inl rfl
        · split
          · next st2 hst2 => exact Or.inr ⟨_, setItem_ok_eq hst2⟩
          · exact Or.inl rfl
        · split
          · split
            · next st2 hst2 => exact Or.inr ⟨_, setItem_ok_eq hst2⟩
            · exact Or.inl rfl
          · exact Or.inl rfl

theorem keys_send_signal_store (plat : Platform)
    (osKill : Int → Int → KillResult) (st : Store) (name : String)
    (sig : Int) :
    keys (ProcessManager.send_signal plat osKill st name sig).store =
      keys st := by
  rcases send_signal_store_eq plat osKill st name sig with hs | ⟨v, hs⟩
  · rw [hs]
  · rw [hs, keys_setEntry]

theorem keys_kill_store (plat : Platform) (osKill : Int → Int → KillResult)
    (st : Store) (name : String) :
    keys (ProcessManager.kill plat osKill st name).store = keys st := by
  cases plat with
  | win32 => exact keys_send_signal_store _ osKill st name _
  | posix => exact keys_send_signal_store _ osKill st name _

/-! ### Claims -/

/-- C10: for a name with no persisted record, `send_signal` raises
`KeyError` (NotFound) for every platform and every signal value: the
record fetch precedes the win32 signal-set validation, so even a
disallowed signal on win32 yields `KeyError` rather than
`UnsupportedSignalError`, the store is unchanged, and no `os.kill` call
is made. -/
theorem send_signal_missing_entry_keyError (plat : Platform)
    (osKill : Int → Int → KillResult) (st : Store) (name : String) (sig : Int)
    (h : getItem st name = .error .keyError) :
    ProcessManager.send_signal plat osKill st name sig =
      ⟨.error .keyError, st, []⟩ := by
  simp only [ProcessManager.send_signal, h]

/-- Witness for C10 at a concrete input: the empty store on win32 with the
disallowed signal value 99. -/
theorem send_signal_missing_entry_keyError_witness :
    ProcessManager.send_signal .win32 osAll [] "x" 99 =
      ⟨.error .keyError, [], []⟩ :=
  send_signal_missing_entry_keyError .win32 osAll [] "x" 99 rfl

/-- C7: for a name absent from the registry, `get` returns the default
without raising, and `remove` returns successfully as a no-op, leaving
the store unchanged and issuing no OS call. -/
theorem get_default_and_remove_noop (plat : Platform)
    (osKill : Int → Int → KillResult) (st : Store) (name : String)
    (dflt : Option ProcessInfo) (force : Bool)
    (h : getItem st name = .error .keyError) :
    ProcessManager.get st name dflt = .ok dflt ∧
    ProcessManager.remove plat osKill st name force = ⟨.ok (), st, []⟩ := by
  constructor
  · simp only [ProcessManager.get, h]
  · simp only [ProcessManager.remove, h]

/-- Witness for C7 at a concrete input: the name "x" is absent from
`wStore`. -/
theorem get_default_and_remove_noop_witness :
    ProcessManager.get wStore "x" (some infoLive) = .ok (some infoLive) ∧
    ProcessManager.remove .posix osAll wStore "x" false =
      ⟨.ok (), wStore, []⟩ :=
  get_default_and_remove_noop .posix osAll wStore "x" (some infoLive) false
    (by decide)

/-- C5: signaling an entry whose record has a returncode (terminated, any
value) with a signal allowed on the platform is a no-op: the call
succeeds, no `os.kill` call is issued, and the store is unchanged. -/
theorem send_signal_terminated_noop (plat : Platform)
    (osKill : Int → Int → KillResult) (st : Store) (name : String) (sig : Int)
    (info : ProcessInfo) (rc : Int)
    (h : getItem st name = .ok info) (hrc : info.returncode = some rc)
    (hsig : plat = .posix ∨ sig = SIGTERM ∨ sig = CTRL_C_EVENT ∨
      sig = CTRL_BREAK_EVENT) :
    ProcessManager.send_signal plat osKill st name sig = ⟨.ok (), st, []⟩ :=
  send_signal_noop_of_terminated h hrc hsig

/-- Witness for C5 at a concrete input: the terminated entry "b" of
`wStore` signaled with SIGKILL on POSIX, under an OS in which every
kill would succeed (so any issued call would be visible in the trace). -/
theorem send_signal_terminated_noop_witness :
    ProcessManager.send_signal .posix osAll wStore "b" SIGKILL =
      ⟨.ok (), wStore, []⟩ :=
  send_signal_terminated_noop .posix osAll wStore "b" SIGKILL infoDead 0
    (by decide) (by decide) (Or.inl rfl)

/-- C6: on win32, for an existing readable entry (any returncode) and a
signal outside {SIGTERM, CTRL_C_EVENT, CTRL_BREAK_EVENT}, `send_signal`
raises `UnsupportedSignalError` before the terminated/live dispatch: no
OS call, no state change. -/
theorem send_signal_win32_unsupported (osKill : Int → Int → KillResult)
    (st : Store) (name : String) (sig : Int) (info : ProcessInfo)
    (h : getItem st name = .ok info)
    (hsig : ¬(sig = SIGTERM ∨ sig = CTRL_C_EVENT ∨ sig = CTRL_BREAK_EVENT)) :
    ProcessManager.send_signal .win32 osKill st name sig =
      ⟨.error (.unsupportedSignalError sig), st, []⟩ := by
  simp only [ProcessManager.send_signal, h]
  simp [hsig]

/-- Witness for C6 at a concrete input: signal 2 (SIGINT) on win32 against
the live entry "a" of `wStore`. -/
theorem send_signal_win32_unsupported_witness :
    ProcessManager.send_signal .win32 osAll wStore "a" 2 =
      ⟨.error (.unsupportedSignalError 2), wStore, []⟩ :=
  send_signal_win32_unsupported osAll wStore "a" 2 infoLive (by decide)
    (by decide)

/-- C2: removing an entry whose record has no returncode with
`force = false` raises `ProcessNotTerminatedError` and leaves the entry
completely untouched: the store is unchanged, no kill is attempted, no
OS call is made. -/
theorem remove_live_without_force_raises (plat : Platform)
    (osKill : Int → Int → KillResult) (st : Store) (name : String)
    (info : ProcessInfo)
    (h : getItem st name = .ok info) (hrc : info.returncode = none) :
    ProcessManager.remove plat osKill st name false =
      ⟨.error (.notTerminatedError name), st, []⟩ :=
  remove_notTerminated_aux h hrc

/-- Witness for C2 at a concrete input: the live entry "a" of `wStore`. -/
theorem remove_live_without_force_raises_witness :
    ProcessManager.remove .posix osAll wStore "a" false =
      ⟨.error (.notTerminatedError "a"), wStore, []⟩ :=
  remove_live_without_force_raises .posix osAll wStore "a" infoLive
    (by decide) (by decide)

/-- C1: signaling an entry whose record has no returncode and whose pid is
gone — the OS reports `ProcessLookupError`, or, on win32, an `OSError`
with `winerror == 87` — self-heals the persisted record to
`returncode = -1` and re-raises `ProcessLookupError` to the caller; the
resulting store holds the healed record under the same name. -/
theorem send_signal_gone_self_heals (plat : Platform)
    (osKill : Int → Int → KillResult) (st : Store) (name : String) (sig : Int)
    (info : ProcessInfo)
    (h : getItem st name = .ok info) (hrc : info.returncode = none)
    (hsig : plat = .posix ∨ sig = SIGTERM ∨ sig = CTRL_C_EVENT ∨
      sig = CTRL_BREAK_EVENT)
    (hkill : osKill info.pid sig = .processLookupError ∨
      (plat = .win32 ∧ osKill info.pid sig = .osError (some 87))) :
    ProcessManager.send_signal plat osKill st name sig =
      ⟨.error .processLookupError,
        setEntry st name (some (.valid { info with returncode := some (-1) })),
        [(info.pid, sig)]⟩ ∧
    getItem (ProcessManager.send_signal plat osKill st name sig).store name =
      .ok { info with returncode := some (-1) } := by
  have hcond := send_signal_cond_false hsig
  have hmain : ProcessManager.send_signal plat osKill st name sig =
      ⟨.error .processLookupError,
        setEntry st name (some (.valid { info with returncode := some (-1) })),
        [(info.pid, sig)]⟩ := by
    rcases hkill with hk | ⟨hw, hk⟩
    · simp only [ProcessManager.send_signal, h, if_neg hcond, hrc, hk,
        setItem_of_getItem_ok h]
    · subst hw
      have hs : sig = SIGTERM ∨ sig = CTRL_C_EVENT ∨ sig = CTRL_BREAK_EVENT := by
        rcases hsig with hp | hs
        · cases hp
        · exact hs
      simp only [ProcessManager.send_signal, h, hrc, hk,
        setItem_of_getItem_ok h]
      simp [hs]
  refine ⟨hmain, ?_⟩
  rw [hmain]
  exact getItem_setEntry_self h

/-- Witness for C1 at a concrete input: the live entry "a" of `wStore`
signaled with SIGTERM under an OS in which no pid exists. -/
theorem send_signal_gone_self_heals_witness :
    ProcessManager.send_signal .posix osEmpty wStore "a" SIGTERM =
      ⟨.error .processLookupError,
        setEntry wStore "a"
          (some (.valid { infoLive with returncode := some (-1) })),
        [(123, SIGTERM)]⟩ ∧
    getItem (ProcessManager.send_signal .posix osEmpty wStore "a" SIGTERM).store
        "a" = .ok { infoLive with returncode := some (-1) } :=
  send_signal_gone_self_heals .posix osEmpty wStore "a" SIGTERM infoLive
    (by decide) (by decide) (Or.inl rfl) (Or.inl rfl)

/-- C4: for an existing readable entry that is terminated or with
`force = true`, `remove` first attempts `kill(name)` — under either kill
outcome (success, or `ProcessLookupError`, which it ignores) — and then
deletes the entry from the store: the result is success, the final store
is the kill-result store with the entry's directory removed, the OS
calls are exactly the kill attempt's, and the entry is no longer
present. -/
theorem remove_kills_then_deletes (plat : Platform)
    (osKill : Int → Int → KillResult) (st : Store) (name : String)
    (force : Bool) (info : ProcessInfo)
    (h : getItem st name = .ok info)
    (hterm : info.returncode ≠ none ∨ force = true)
    (hnd : nodupKeys st = true)
    (hk : (ProcessManager.kill plat osKill st name).res = .ok () ∨
      (ProcessManager.kill plat osKill st name).res =
        .error .processLookupError) :
    ProcessManager.remove plat osKill st name force =
      ⟨.ok (), delItem (ProcessManager.kill plat osKill st name).store name,
        (ProcessManager.kill plat osKill st name).calls⟩ ∧
    lookupEntry (ProcessManager.remove plat osKill st name force).store
      name = none := by
  have hcond : ¬(info.returncode = none ∧ force = false) := by
    rintro ⟨hn, hf⟩
    rcases hterm with ht | ht
    · exact ht hn
    · rw [ht] at hf
      cases hf
  have hmain : ProcessManager.remove plat osKill st name force =
      ⟨.ok (), delItem (ProcessManager.kill plat osKill st name).store name,
        (ProcessManager.kill plat osKill st name).calls⟩ := by
    rcases hk with hk | hk
    · simp only [ProcessManager.remove, h, if_neg hcond, hk]
    · simp only [ProcessManager.remove, h, if_neg hcond, hk]
  refine ⟨hmain, ?_⟩
  rw [hmain]
  have hnd2 : (keys (ProcessManager.kill plat osKill st name).store).Nodup := by
    rw [keys_kill_store]
    simpa [nodupKeys] using hnd
  exact lookupEntry_eraseEntry_self hnd2

/-- Witness for C4 at a concrete input: the terminated entry "b" of
`wStore` without force. -/
theorem remove_kills_then_deletes_witness :
    ProcessManager.remove .posix osAll wStore "b" false =
      ⟨.ok (),
        delItem (ProcessManager.kill .posix osAll wStore "b").store "b",
        (ProcessManager.kill .posix osAll wStore "b").calls⟩ ∧
    lookupEntry (ProcessManager.remove .posix osAll wStore "b" false).store
      "b" = none :=
  remove_kills_then_deletes .posix osAll wStore "b" false infoDead
    (by decide) (Or.inl (by decide)) (by decide) (Or.inl (by decide))

theorem cleanupGo_spec (plat : Platform) (osKill : Int → Int → KillResult) :
    ∀ (post pre : Store),
    (keys (pre ++ post)).Nodup →
    (∀ p ∈ post, ∃ info, p.2 = some (.valid info)) →
    ProcessManager.cleanupGo plat osKill false (keys post) (pre ++ post) =
      ⟨.ok (), pre ++ post.filter entryLive, []⟩ := by
  intro post
  induction post with
  | nil =>
    intro pre hnd hval
    simp [ProcessManager.cleanupGo, keys]
  | cons hd post2 ih =>
    obtain ⟨n, f⟩ := hd
    intro pre hnd hval
    obtain ⟨info, hf⟩ := hval (n, f) (List.mem_cons_self _ _)
    subst hf
    have hnd2 : (keys pre ++ n :: keys post2).Nodup := by
      simpa [keys_append, keys] using hnd
    have hnpre : n ∉ keys pre := fun hmem =>
      (List.disjoint_of_nodup_append hnd2) hmem (List.mem_cons_self _ _)
    have hget : getItem (pre ++ (n, some (RecordFile.valid info)) :: post2)
        n = .ok info := by
      unfold getItem
      rw [lookupEntry_append_of_not_mem hnpre]
      simp [lookupEntry]
    have hvalid2 : ∀ p ∈ post2, ∃ i, p.2 = some (RecordFile.valid i) :=
      fun p hp => hval p (List.mem_cons_of_mem _ hp)
    have hkeys : keys ((n, some (RecordFile.valid info)) :: post2) =
        n :: keys post2 := rfl
    rw [hkeys]
    cases hrc : info.returncode with
    | none =>
      have hr := @remove_notTerminated_aux plat osKill _ _ _ hget hrc
      have hndA : (keys ((pre ++ [(n, some (RecordFile.valid info))]) ++
          post2)).Nodup := by
        simpa [keys_append, keys, List.append_assoc] using hnd2
      have hstep := ih (pre ++ [(n, some (RecordFile.valid info))]) hndA
        hvalid2
      have hassoc : (pre ++ [(n, some (RecordFile.valid info))]) ++ post2 =
          pre ++ (n, some (RecordFile.valid info)) :: post2 := by
        simp
      rw [hassoc] at hstep
      simp only [ProcessManager.cleanupGo, hr, hstep]
      have hlive : entryLive (n, some (RecordFile.valid info)) = true := by
        simp [entryLive, hrc]
      simp [List.filter_cons, hlive]
    | some rc =>
      have hr := @remove_terminated_aux plat osKill _ _ _ _ hget hrc false
      have hdel : delItem (pre ++ (n, some (RecordFile.valid info)) :: post2)
          n = pre ++ post2 :=
        eraseEntry_append_of_not_mem hnpre
      rw [hdel] at hr
      have hndB : (keys (pre ++ post2)).Nodup := by
        have hsub : List.Sublist (keys pre ++ keys post2)
            (keys pre ++ n :: keys post2) :=
          List.Sublist.append_left (List.sublist_cons_self n _) _
        have hn3 : (keys pre ++ keys post2).Nodup := hnd2.sublist hsub
        simpa [keys_append] using hn3
      have hstep := ih pre hndB hvalid2
      simp only [ProcessManager.cleanupGo, hr, hstep]
      have hdead : entryLive (n, some (RecordFile.valid info)) = false := by
        simp [entryLive, hrc]
      simp [List.filter_cons, hdead]

/-- C3: `cleanup(force=false)` over a store of decodable records visits
every entry, swallowing the `ProcessNotTerminatedError` per entry so the
scan continues; it succeeds, removes exactly the entries with a present
returncode, keeps every entry with an absent returncode, and issues no
OS call. -/
theorem cleanup_removes_exactly_terminated (plat : Platform)
    (osKill : Int → Int → KillResult) (st : Store)
    (hnd : nodupKeys st = true)
    (hval : ∀ p ∈ st, ∃ info, p.2 = some (.valid info)) :
    ProcessManager.cleanup plat osKill st false =
      ⟨.ok (), st.filter entryLive, []⟩ := by
  have hnd2 : (keys ([] ++ st)).Nodup := by
    simpa [nodupKeys] using hnd
  exact cleanupGo_spec plat osKill st [] hnd2 hval

/-- Witness for C3 at a concrete input: `wStore` mixes the live entry "a"
and the terminated entry "b"; cleanup removes exactly "b". -/
theorem cleanup_removes_exactly_terminated_witness :
    ProcessManager.cleanup .posix osAll wStore false =
      ⟨.ok (), [("a", some (.valid infoLive))], []⟩ := by
  have hval : ∀ p ∈ wStore, ∃ info, p.2 = some (.valid info) := by
    intro p hp
    simp only [wStore, List.mem_cons, List.not_mem_nil, or_false] at hp
    rcases hp with rfl | rfl
    · exact ⟨infoLive, rfl⟩
    · exact ⟨infoDead, rfl⟩
  rw [cleanup_removes_exactly_terminated .posix osAll wStore (by decide) hval]
  decide

theorem processesGo_ok :
    ∀ (post pre : Store), (keys (pre ++ post)).Nodup →
    (∀ p ∈ post, p.2 ≠ some RecordFile.malformed) →
    ProcessManager.processesGo (pre ++ post) (keys post) =
      .ok (validPairs post) := by
  intro post
  induction post with
  | nil =>
    intro pre hnd hok
    rfl
  | cons hd post2 ih =>
    obtain ⟨n, f⟩ := hd
    intro pre hnd hok
    have hnd2 : (keys pre ++ n :: keys post2).Nodup := by
      simpa [keys_append, keys] using hnd
    have hnpre : n ∉ keys pre := fun hmem =>
      (List.disjoint_of_nodup_append hnd2) hmem (List.mem_cons_self _ _)
    have hlook : lookupEntry (pre ++ (n, f) :: post2) n = some f := by
      rw [lookupEntry_append_of_not_mem hnpre]
      simp [lookupEntry]
    have hndA : (keys ((pre ++ [(n, f)]) ++ post2)).Nodup := by
      simpa [keys_append, keys, List.append_assoc] using hnd2
    have hok2 : ∀ p ∈ post2, p.2 ≠ some RecordFile.malformed :=
      fun p hp => hok p (List.mem_cons_of_mem _ hp)
    have hstep := ih (pre ++ [(n, f)]) hndA hok2
    have hassoc : (pre ++ [(n, f)]) ++ post2 = pre ++ (n, f) :: post2 := by
      simp
    rw [hassoc] at hstep
    have hkeys : keys ((n, f) :: post2) = n :: keys post2 := rfl
    rw [hkeys]
    match hfc : f with
    | none =>
      simp only [ProcessManager.processesGo, getItem, hlook, hstep,
        validPairs, List.filterMap_cons]
    | some RecordFile.malformed =>
      exact absurd rfl (hok (n, some RecordFile.malformed)
        (List.mem_cons_self _ _))
    | some (RecordFile.valid info) =>
      simp only [ProcessManager.processesGo, getItem, hlook, hstep,
        Except.map, validPairs, List.filterMap_cons]

theorem processesGo_err :
    ∀ (post pre : Store), (keys (pre ++ post)).Nodup →
    (∃ p ∈ post, p.2 = some RecordFile.malformed) →
    ProcessManager.processesGo (pre ++ post) (keys post) =
      .error .jsonDecodeError := by
  intro post
  induction post with
  | nil =>
    intro pre hnd hbad
    obtain ⟨p, hp, -⟩ := hbad
    cases hp
  | cons hd post2 ih =>
    obtain ⟨n, f⟩ := hd
    intro pre hnd hbad
    have hnd2 : (keys pre ++ n :: keys post2).Nodup := by
      simpa [keys_append, keys] using hnd
    have hnpre : n ∉ keys pre := fun hmem =>
      (List.disjoint_of_nodup_append hnd2) hmem (List.mem_cons_self _ _)
    have hlook : lookupEntry (pre ++ (n, f) :: post2) n = some f := by
      rw [lookupEntry_append_of_not_mem hnpre]
      simp [lookupEntry]
    have hkeys : keys ((n, f) :: post2) = n :: keys post2 := rfl
    rw [hkeys]
    match hfc : f with
    | some RecordFile.malformed =>
      simp only [ProcessManager.processesGo, getItem, hlook]
    | none =>
      have hbad2 : ∃ p ∈ post2, p.2 = some RecordFile.malformed := by
        obtain ⟨p, hp, hm⟩ := hbad
        rcases List.mem_cons.mp hp with rfl | hp2
        · cases hm
        · exact ⟨p, hp2, hm⟩
      have hndA : (keys ((pre ++ [(n, (none : Option RecordFile))]) ++
          post2)).Nodup := by
        simpa [keys_append, keys, List.append_assoc] using hnd2
      have hstep := ih (pre ++ [(n, none)]) hndA hbad2
      have hassoc : (pre ++ [(n, (none : Option RecordFile))]) ++ post2 =
          pre ++ (n, none) :: post2 := by
        simp
      rw [hassoc] at hstep
      simp only [ProcessManager.processesGo, getItem, hlook, hstep]
    | some (RecordFile.valid info) =>
      have hbad2 : ∃ p ∈ post2, p.2 = some RecordFile.malformed := by
        obtain ⟨p, hp, hm⟩ := hbad
        rcases List.mem_cons.mp hp with rfl | hp2
        · cases hm
        · exact ⟨p, hp2, hm⟩
      have hndA : (keys ((pre ++ [(n, some (RecordFile.valid info))]) ++
          post2)).Nodup := by
        simpa [keys_append, keys, List.append_assoc] using hnd2
      have hstep := ih (pre ++ [(n, some (RecordFile.valid info))]) hndA
        hbad2
      have hassoc : (pre ++ [(n, some (RecordFile.valid info))]) ++ post2 =
          pre ++ (n, some (RecordFile.valid info)) :: post2 := by
        simp
      rw [hassoc] at hstep
      simp only [ProcessManager.processesGo, getItem, hlook, hstep,
        Except.map]

/-- Counterexample to C8 as stated: in `mStore` the entry "a" has a
malformed record file; enumeration does not skip it and continue to
yield the valid entry "b" — it aborts with the decode error. -/
theorem processes_malformed_aborts :
    ProcessManager.processes mStore = .error .jsonDecodeError ∧
    ProcessManager.processes mStore ≠ .ok [("b", infoDead)] := by
  constructor
  · decide
  · decide

/-- C8 (amended): enumeration silently skips every entry whose record
file is missing and continues with the remaining entries; but an entry
whose record content is malformed is not skipped — the decode error
propagates and aborts the enumeration. -/
theorem processes_skips_missing_aborts_malformed :
    (∀ st : Store, nodupKeys st = true →
      (∀ p ∈ st, p.2 ≠ some RecordFile.malformed) →
      ProcessManager.processes st = .ok (validPairs st)) ∧
    (∀ st : Store, nodupKeys st = true →
      (∃ p ∈ st, p.2 = some RecordFile.malformed) →
      ProcessManager.processes st = .error .jsonDecodeError) := by
  constructor
  · intro st hnd hok
    have hnd2 : (keys ([] ++ st)).Nodup := by
      simpa [nodupKeys] using hnd
    exact processesGo_ok st [] hnd2 hok
  · intro st hnd hbad
    have hnd2 : (keys ([] ++ st)).Nodup := by
      simpa [nodupKeys] using hnd
    exact processesGo_err st [] hnd2 hbad

/-- Witness for the amended C8 at concrete inputs: a store with a missing
record file is skipped over, and `mStore` with its malformed entry
aborts. -/
theorem processes_skips_missing_aborts_malformed_witness :
    ProcessManager.processes
        [("a", none), ("b", some (.valid infoDead))] =
      .ok [("b", infoDead)] ∧
    ProcessManager.processes mStore = .error .jsonDecodeError := by
  constructor
  · exact processes_skips_missing_aborts_malformed.1
      [("a", none), ("b", some (.valid infoDead))] (by decide)
      (by decide)
  · exact processes_skips_missing_aborts_malformed.2 mStore (by decide)
      ⟨("a", some RecordFile.malformed), by decide, rfl⟩

/-! ### Returncode monotonicity -/

theorem rcMono_refl (st : Store) : RcMono st st :=
  fun _ info2 h => ⟨info2, h, Or.inl rfl⟩

theorem rcMono_trans {a b c : Store} (h1 : RcMono a b) (h2 : RcMono b c) :
    RcMono a c := by
  intro nm info3 h3
  obtain ⟨info2, hb, hd2⟩ := h2 nm info3 h3
  obtain ⟨info1, ha, hd1⟩ := h1 nm info2 hb
  refine ⟨info1, ha, ?_⟩
  rcases hd2 with h32 | ⟨h2n, h3m⟩
  · rcases hd1 with h21 | ⟨h1n, h2m⟩
    · exact Or.inl (h32.trans h21)
    · exact Or.inr ⟨h1n, h32.trans h2m⟩
  · rcases hd1 with h21 | ⟨h1n, h2m⟩
    · exact Or.inr ⟨h21.symm.trans h2n, h3m⟩
    · exact Or.inr ⟨h1n, h3m⟩

theorem rcMono_setHeal {st : Store} {name : String} {info : ProcessInfo}
    (h : getItem st name = .ok info) (hrc : info.returncode = none) :
    RcMono st
      (setEntry st name
        (some (.valid { info with returncode := some (-1) }))) := by
  intro nm info2 h2
  by_cases hnm : nm = name
  · subst hnm
    rw [getItem_setEntry_self h] at h2
    injection h2 with h3
    subst h3
    exact ⟨info, h, Or.inr ⟨hrc, rfl⟩⟩
  · unfold getItem at h2 ⊢
    rw [lookupEntry_setEntry_ne hnm] at h2
    exact ⟨info2, h2, Or.inl rfl⟩

theorem rcMono_send_signal (plat : Platform)
    (osKill : Int → Int → KillResult) (st : Store) (name : String)
    (sig : Int) :
    RcMono st (ProcessManager.send_signal plat osKill st name sig).store := by
  rcases hget : getItem st name with e | info
  · simp only [ProcessManager.send_signal, hget]
    exact rcMono_refl st
  · by_cases hc : plat = .win32 ∧
        ¬(sig = SIGTERM ∨ sig = CTRL_C_EVENT ∨ sig = CTRL_BREAK_EVENT)
    · simp only [ProcessManager.send_signal, hget, if_pos hc]
      exact rcMono_refl st
    · cases hrc : info.returncode with
      | some rc =>
        simp only [ProcessManager.send_signal, hget, if_neg hc, hrc]
        exact rcMono_refl st
      | none =>
        rcases hk : osKill info.pid sig with _ | _ | w
        · simp only [ProcessManager.send_signal, hget, if_neg hc, hrc, hk]
          exact rcMono_refl st
        · simp only [ProcessManager.send_signal, hget, if_neg hc, hrc, hk,
            setItem_of_getItem_ok hget]
          exact rcMono_setHeal hget hrc
        · by_cases hw : plat = .win32 ∧ w = some 87
          · simp only [ProcessManager.send_signal, hget, if_neg hc, hrc, hk,
              setItem_of_getItem_ok hget, if_pos hw]
            exact rcMono_setHeal hget hrc
          · simp only [ProcessManager.send_signal, hget, if_neg hc, hrc, hk,
              if_neg hw]
            exact rcMono_refl st

theorem rcMono_kill (plat : Platform) (osKill : Int → Int → KillResult)
    (st : Store) (name : String) :
    RcMono st (ProcessManager.kill plat osKill st name).store := by
  cases plat with
  | win32 => exact rcMono_send_signal _ osKill st name _
  | posix => exact rcMono_send_signal _ osKill st name _

theorem rcMono_delItem {st : Store} (hnd : (keys st).Nodup) (k : String) :
    RcMono st (delItem st k) := by
  intro nm info2 h2
  by_cases hnm : nm = k
  · subst hnm
    simp [getItem, delItem, lookupEntry_eraseEntry_self hnd] at h2
  · unfold delItem at h2
    unfold getItem at h2 ⊢
    rw [lookupEntry_eraseEntry_ne hnm] at h2
    exact ⟨info2, h2, Or.inl rfl⟩

theorem keys_remove_store_sublist (plat : Platform)
    (osKill : Int → Int → KillResult) (st : Store) (name : String)
    (force : Bool) :
    List.Sublist (keys (ProcessManager.remove plat osKill st name
      force).store) (keys st) := by
  rcases hget : getItem st name with e | info
  · cases e <;> simp only [ProcessManager.remove, hget] <;>
      exact List.Sublist.refl _
  · by_cases hcond : info.returncode = none ∧ force = false
    · simp only [ProcessManager.remove, hget, if_pos hcond]
      exact List.Sublist.refl _
    · have hkeys : keys (ProcessManager.kill plat osKill st name).store =
          keys st := keys_kill_store plat osKill st name
      have hsub : List.Sublist
          (keys (delItem (ProcessManager.kill plat osKill st name).store
            name)) (keys st) := by
        rw [← hkeys]
        exact List.Sublist.map Prod.fst eraseEntry_sublist
      rcases hres : (ProcessManager.kill plat osKill st name).res with e | u
      · cases e <;> simp only [ProcessManager.remove, hget, if_neg hcond,
          hres]
        · rw [hkeys]
        · rw [hkeys]
        · rw [hkeys]
        · exact hsub
        · rw [hkeys]
        · rw [hkeys]
      · simp only [ProcessManager.remove, hget, if_neg hcond, hres]
        exact hsub

theorem rcMono_remove (plat : Platform) (osKill : Int → Int → KillResult)
    (st : Store) (name : String) (force : Bool)
    (hnd : (keys st).Nodup) :
    RcMono st (ProcessManager.remove plat osKill st name force).store := by
  rcases hget : getItem st name with e | info
  · cases e <;> simp only [ProcessManager.remove, hget] <;>
      exact rcMono_refl st
  · by_cases hcond : info.returncode = none ∧ force = false
    · simp only [ProcessManager.remove, hget, if_pos hcond]
      exact rcMono_refl st
    · have hkmono : RcMono st
          (ProcessManager.kill plat osKill st name).store :=
        rcMono_kill plat osKill st name
      have hndk : (keys (ProcessManager.kill plat osKill st
          name).store).Nodup := by
        rw [keys_kill_store]
        exact hnd
      have hdel := rcMono_trans hkmono
        (rcMono_delItem hndk name)
      rcases hres : (ProcessManager.kill plat osKill st name).res with e | u
      · cases e <;> simp only [ProcessManager.remove, hget, if_neg hcond,
          hres]
        · exact hkmono
        · exact hkmono
        · exact hkmono
        · exact hdel
        · exact hkmono
        · exact hkmono
      · simp only [ProcessManager.remove, hget, if_neg hcond, hres]
        exact hdel

theorem nodup_remove_store (plat : Platform)
    (osKill : Int → Int → KillResult) (st : Store) (name : String)
    (force : Bool) (hnd : (keys st).Nodup) :
    (keys (ProcessManager.remove plat osKill st name force).store).Nodup :=
  hnd.sublist (keys_remove_store_sublist plat osKill st name force)

theorem rcMono_cleanupGo (plat : Platform)
    (osKill : Int → Int → KillResult) (force : Bool) :
    ∀ (ns : List String) (st : Store), (keys st).Nodup →
    RcMono st (ProcessManager.cleanupGo plat osKill force ns st).store := by
  intro ns
  induction ns with
  | nil =>
    intro st hnd
    exact rcMono_refl st
  | cons n ns2 ih =>
    intro st hnd
    have hr : RcMono st
        (ProcessManager.remove plat osKill st n force).store :=
      rcMono_remove plat osKill st n force hnd
    have hndr : (keys (ProcessManager.remove plat osKill st n
        force).store).Nodup :=
      nodup_remove_store plat osKill st n force hnd
    have hrest := ih (ProcessManager.remove plat osKill st n force).store
      hndr
    rcases hres : (ProcessManager.remove plat osKill st n force).res
        with e | u
    · cases e <;> simp only [ProcessManager.cleanupGo, hres]
      · exact hr
      · exact hr
      · exact hr
      · exact hr
      · exact rcMono_trans hr hrest
      · exact hr
    · simp only [ProcessManager.cleanupGo, hres]
      exact rcMono_trans hr hrest

/-- C9: every registry operation — `send_signal`, `terminate`, `kill`,
`remove`, `cleanup` — satisfies returncode monotonicity: every record
still readable after the operation was readable before with either an
unchanged returncode or the single registry-performed write, absent
healed to `-1`; in particular a present returncode is never modified or
cleared by any of them. -/
theorem registry_preserves_present_returncode (plat : Platform)
    (osKill : Int → Int → KillResult) (st : Store) (name : String)
    (sig : Int) (force : Bool) (hnd : nodupKeys st = true) :
    RcMono st (ProcessManager.send_signal plat osKill st name sig).store ∧
    RcMono st (ProcessManager.terminate plat osKill st name).store ∧
    RcMono st (ProcessManager.kill plat osKill st name).store ∧
    RcMono st (ProcessManager.remove plat osKill st name force).store ∧
    RcMono st (ProcessManager.cleanup plat osKill st force).store := by
  have hnd2 : (keys st).Nodup := by
    simpa [nodupKeys] using hnd
  refine ⟨rcMono_send_signal plat osKill st name sig, ?_,
    rcMono_kill plat osKill st name,
    rcMono_remove plat osKill st name force hnd2,
    rcMono_cleanupGo plat osKill force (keys st) st hnd2⟩
  exact rcMono_send_signal plat osKill st name SIGTERM

/-- Witness for C9 at a concrete input: `wStore` under an OS in which no
pid exists, with SIGTERM, on POSIX. -/
theorem registry_preserves_present_returncode_witness :
    RcMono wStore
      (ProcessManager.send_signal .posix osEmpty wStore "a" SIGTERM).store ∧
    RcMono wStore (ProcessManager.terminate .posix osEmpty wStore "a").store ∧
    RcMono wStore (ProcessManager.kill .posix osEmpty wStore "a").store ∧
    RcMono wStore
      (ProcessManager.remove .posix osEmpty wStore "a" true).store ∧
    RcMono wStore (ProcessManager.cleanup .posix osEmpty wStore true).store :=
  registry_preserves_present_returncode .posix osEmpty wStore "a" SIGTERM
    true (by decide)

end DvcTask
